import Mathlib

/-!
Verification of the core logic of `infinite-wordle` (src/script.js):
the guess-evaluation engine, the keyboard-mark aggregation, the
fallback word selection, and the session state machine.

Words are modelled as lists of characters; the game grid, keyboard
marks and letter-count maps of the JavaScript source are modelled as
explicit functions; the asynchronous dictionary validator is modelled
as an oracle argument to the submit transition.
-/

namespace Wordle

/-- `WORD_LENGTH` constant of src/script.js. -/
def WORD_LENGTH : Nat := 5

/-- `MAX_GUESSES` constant of src/script.js. -/
def MAX_GUESSES : Nat := 6

/-- Per-position verdict: the CSS classes `correct` / `present` / `absent`
assigned by `evaluateGuess`. -/
inductive Verdict where
  | correct
  | present
  | absent
deriving DecidableEq, Repr

/-- Pointwise update of a letter-count map (`letterCounts[c] = v`). -/
def setCount (m : Char → Int) (c : Char) (v : Int) : Char → Int :=
  fun x => if x = c then v else m x

/-- The letter-count map built by the first loop of `evaluateGuess`:
`letterCounts[letter] = (letterCounts[letter] || 0) + 1` over the letters
of the target word. -/
def buildCounts (target : List Char) : Char → Int :=
  target.foldl (fun m letter => setCount m letter (m letter + 1)) (fun _ => 0)

/-- First pass of `evaluateGuess`: walk guess and target together;
where they agree, record `correct` and decrement that letter's count;
elsewhere leave the slot unassigned (`null`, modelled as `none`). -/
def pass1 : List Char → List Char → (Char → Int) →
    List (Option Verdict) × (Char → Int)
  | g :: gs, t :: ts, counts =>
    if g = t then
      let r := pass1 gs ts (setCount counts g (counts g - 1))
      (some Verdict.correct :: r.1, r.2)
    else
      let r := pass1 gs ts counts
      (none :: r.1, r.2)
  | _, _, counts => ([], counts)

/-- Second pass of `evaluateGuess`: for each still-unassigned slot, if the
target contains the guessed letter (`tempTargetWord.includes(guess[i])`) and
its remaining count is positive, record `present` and decrement; otherwise
record `absent`. -/
def pass2 (target : List Char) : List (Option Verdict) → List Char →
    (Char → Int) → List Verdict
  | e :: es, g :: gs, counts =>
    match e with
    | some v => v :: pass2 target es gs counts
    | none =>
      if g ∈ target ∧ counts g > 0 then
        Verdict.present :: pass2 target es gs (setCount counts g (counts g - 1))
      else
        Verdict.absent :: pass2 target es gs counts
  | _, _, _ => []

/-- `evaluateGuess` of src/script.js (lines 197-226), with the global
`targetWord` passed explicitly: build the letter counts of the target,
run the correct-pass, then the present/absent-pass. -/
def evaluateGuess (guess target : List Char) : List Verdict :=
  let counts := buildCounts target
  let r := pass1 guess target counts
  pass2 target r.1 guess r.2

/-! ## Keyboard mark aggregation (`updateKeyboard`, lines 288-298) -/

/-- The letter keys of the on-screen keyboard created by `createKeyboard`
(the `enter` and `backspace` keys carry no letter mark). -/
def KEYBOARD_KEYS : List Char :=
  ['q', 'w', 'e', 'r', 't', 'y', 'u', 'i', 'o', 'p',
   'a', 's', 'd', 'f', 'g', 'h', 'j', 'k', 'l',
   'z', 'x', 'c', 'v', 'b', 'n', 'm']

/-- Pointwise update of the keyboard-mark map. -/
def setMark (kb : Char → Option Verdict) (c : Char) (v : Option Verdict) :
    Char → Option Verdict :=
  fun x => if x = c then v else kb x

/-- `updateKeyboard(letter, status)` of src/script.js: look the key up by the
lowercased letter (missing keys are ignored), keep a `correct` mark forever,
keep a `present` mark against an `absent` status, and otherwise overwrite
the key's mark with the new status. -/
def updateKeyboard (kb : Char → Option Verdict) (letter : Char)
    (status : Verdict) : Char → Option Verdict :=
  let l := letter.toLower
  if l ∈ KEYBOARD_KEYS then
    match kb l with
    | some Verdict.correct => kb
    | some Verdict.present =>
      if status = Verdict.absent then kb else setMark kb l (some status)
    | _ => setMark kb l (some status)
  else kb

/-- Fold a whole row's `(letter, verdict)` pairs into the keyboard map, in
position order, as the per-tile animation callbacks of `evaluateGuess` do. -/
def applyRow (kb : Char → Option Verdict) (guess : List Char)
    (verdicts : List Verdict) : Char → Option Verdict :=
  (guess.zip verdicts).foldl (fun k p => updateKeyboard k p.1 p.2) kb

/-- Fold an arbitrary sequence of keyboard aggregate updates. -/
def applyUpdates (kb : Char → Option Verdict)
    (ups : List (Char × Verdict)) : Char → Option Verdict :=
  ups.foldl (fun k p => updateKeyboard k p.1 p.2) kb

/-- Severity rank of a keyboard mark: unmarked < absent < present < correct. -/
def rank : Option Verdict → Nat
  | none => 0
  | some Verdict.absent => 1
  | some Verdict.present => 2
  | some Verdict.correct => 3

/-! ## Word provider (`fetchNewWord`, lines 81-94) -/

/-- `FALLBACK_WORDS` of src/script.js. -/
def FALLBACK_WORDS : List String :=
  ["APPLE", "BEACH", "BRAIN", "BREAD", "CHAIR", "CRANE", "EARTH", "FLOOR",
   "GHOST", "HEART", "HOUSE", "JUICE", "LIGHT", "LUCKY", "MONEY", "MUSIC",
   "NIGHT", "OCEAN", "PAPER", "PARTY", "PIZZA", "PLANT", "POWER", "QUIET",
   "RADIO", "RIVER", "SALAD", "SHEEP", "SMILE", "SNAKE", "SOUND", "SPACE",
   "SUGAR", "TABLE", "TIGER", "TRAIN", "WATER", "WHITE", "WOMAN", "WORLD"]

/-- Outcome of the remote word fetch in `fetchNewWord`. -/
inductive FetchResult where
  | ok (word : String)
  | failed
deriving DecidableEq

/-- The target word chosen by `fetchNewWord`: on success the fetched word
uppercased; on failure `FALLBACK_WORDS[Math.floor(Math.random() *
FALLBACK_WORDS.length)]`, where the random draw is modelled by the natural
number `r` (reduced into range as the floor of `random * length` always is). -/
def chooseTargetWord : FetchResult → Nat → String
  | FetchResult.ok w, _ => w.toUpper
  | FetchResult.failed, r => FALLBACK_WORDS.getD (r % FALLBACK_WORDS.length) ""

/-! ## Session state machine -/

/-- Signals surfaced to the player (toasts) by the game logic. -/
inductive Signal where
  | gameWon
  | gameLost
  | notEnoughLetters
  | notInWordList
  | errorChecking
deriving DecidableEq, Repr

/-- Result reported by the dictionary-validation fetch in `submitGuess`:
a 2xx response, a non-ok response (word rejected), or a thrown network
error. -/
inductive ValidatorResult where
  | accepted
  | rejected
  | networkError
deriving DecidableEq

/-- A keyboard / on-screen key press routed to `handleKeyPress`. -/
inductive InputKey where
  | enter
  | backspace
  | char (c : Char)
  | other
deriving DecidableEq

/-- The mutable session state of src/script.js: the globals `targetWord`,
`currentRow`, `currentCol`, `isGameOver`, `isProcessing`, together with the
tile grid contents and keyboard marks held in the DOM. -/
structure GameState where
  targetWord : List Char
  currentRow : Nat
  currentCol : Nat
  isGameOver : Bool
  isProcessing : Bool
  tiles : Nat → Nat → Option Char
  keyboard : Char → Option Verdict

/-- Pointwise update of the tile grid. -/
def setTile (tiles : Nat → Nat → Option Char) (r c : Nat) (v : Option Char) :
    Nat → Nat → Option Char :=
  fun r' c' => if r' = r ∧ c' = c then v else tiles r' c'

/-- `addLetter` (lines 134-143): write the letter at the cursor and advance
it, when the row is not full. -/
def addLetter (st : GameState) (letter : Char) : GameState :=
  if st.currentCol < WORD_LENGTH then
    { st with
        tiles := setTile st.tiles st.currentRow st.currentCol (some letter),
        currentCol := st.currentCol + 1 }
  else st

/-- `deleteLetter` (lines 148-155): retreat the cursor and clear that tile,
when the cursor is past the row start. -/
def deleteLetter (st : GameState) : GameState :=
  if st.currentCol > 0 then
    { st with
        currentCol := st.currentCol - 1,
        tiles := setTile st.tiles st.currentRow (st.currentCol - 1) none }
  else st

/-- `getCurrentGuess` (lines 272-278): concatenate the current row's tile
texts and uppercase the result. -/
def getCurrentGuess (st : GameState) : List Char :=
  (List.range WORD_LENGTH).filterMap
    (fun i => (st.tiles st.currentRow i).map Char.toUpper)

/-- `checkWinLoss` (lines 250-264): win when the guess equals the target,
lose when the final row is exhausted, otherwise advance to the next row,
reset the cursor and release the input lock. -/
def checkWinLoss (st : GameState) (guess : List Char) :
    GameState × List Signal :=
  if guess = st.targetWord then
    ({ st with isGameOver := true }, [Signal.gameWon])
  else if st.currentRow = MAX_GUESSES - 1 then
    ({ st with isGameOver := true }, [Signal.gameLost])
  else
    ({ st with
        currentRow := st.currentRow + 1,
        currentCol := 0,
        isProcessing := false }, [])

/-- `submitGuess` (lines 162-191) together with the synchronous core of
`evaluateGuess`, with the validator's response passed as an oracle: a short
row is rejected outright; otherwise the input lock is taken and, depending
on the validator, the lock is released with a rejection / error toast, or
the guess is evaluated, the keyboard marks folded in, and `checkWinLoss`
run. -/
def submitGuess (st : GameState) (v : ValidatorResult) :
    GameState × List Signal :=
  if st.currentCol < WORD_LENGTH then
    (st, [Signal.notEnoughLetters])
  else
    let guess := getCurrentGuess st
    let st1 := { st with isProcessing := true }
    match v with
    | ValidatorResult.rejected =>
      ({ st1 with isProcessing := false }, [Signal.notInWordList])
    | ValidatorResult.networkError =>
      ({ st1 with isProcessing := false }, [Signal.errorChecking])
    | ValidatorResult.accepted =>
      let verdicts := evaluateGuess guess st1.targetWord
      let st2 := { st1 with keyboard := applyRow st1.keyboard guess verdicts }
      checkWinLoss st2 guess

/-- `handleKeyPress` (lines 116-128): drop input when the game is over or a
submission is in flight; route enter / backspace / single letters a-z. -/
def handleKeyPress (st : GameState) (key : InputKey) (v : ValidatorResult) :
    GameState × List Signal :=
  if st.isGameOver || st.isProcessing then (st, [])
  else
    match key with
    | InputKey.enter => submitGuess st v
    | InputKey.backspace => (deleteLetter st, [])
    | InputKey.char c =>
      let lower := c.toLower
      if 'a' ≤ lower ∧ lower ≤ 'z' then (addLetter st lower, []) else (st, [])
    | InputKey.other => (st, [])

/-- The state produced by `initGame` (lines 99-108) once the word provider
has supplied `target`: fresh grid, fresh keyboard, cursor at the origin. -/
def initState (target : List Char) : GameState :=
  { targetWord := target
    currentRow := 0
    currentCol := 0
    isGameOver := false
    isProcessing := false
    tiles := fun _ _ => none
    keyboard := fun _ => none }

/-- Run a sequence of input events (each with its validator oracle) through
`handleKeyPress`, collecting the emitted signals. -/
def runGame : GameState → List (InputKey × ValidatorResult) →
    GameState × List Signal
  | st, [] => (st, [])
  | st, i :: is =>
    let r := handleKeyPress st i.1 i.2
    let r' := runGame r.1 is
    (r'.1, r.2 ++ r'.2)

/-- Number of terminal (win / loss) signals in a signal list. -/
def terminalCount (sigs : List Signal) : Nat :=
  (sigs.filter
    (fun s => decide (s = Signal.gameWon) || decide (s = Signal.gameLost))).length

/-! ## The evaluation algorithm as worded by the specification (§4.1)

The spec describes the same two passes, but its pass 2 is guarded only by
"the guessed letter has remaining count > 0 in the secret's count map",
without the source's additional `includes` test, and its count map is
described directly as "a count of each letter's occurrences in the secret
word". -/

/-- Count map as the spec words it: each letter's number of occurrences in
the secret. -/
def specCounts (secret : List Char) : Char → Int :=
  fun c => (secret.count c : Int)

/-- Pass 1 as the spec words it: at each position where guess and secret
agree, assign `Correct` and decrement that letter's remaining count. -/
def specPass1 : List Char → List Char → (Char → Int) →
    List (Option Verdict) × (Char → Int)
  | g :: gs, t :: ts, counts =>
    if g = t then
      let r := specPass1 gs ts (setCount counts g (counts g - 1))
      (some Verdict.correct :: r.1, r.2)
    else
      let r := specPass1 gs ts counts
      (none :: r.1, r.2)
  | _, _, counts => ([], counts)

/-- Pass 2 as the spec words it: at each unassigned position, assign
`Present` and decrement when the guessed letter's remaining count is
positive, else `Absent`. -/
def specPass2 : List (Option Verdict) → List Char → (Char → Int) →
    List Verdict
  | e :: es, g :: gs, counts =>
    match e with
    | some v => v :: specPass2 es gs counts
    | none =>
      if counts g > 0 then
        Verdict.present :: specPass2 es gs (setCount counts g (counts g - 1))
      else
        Verdict.absent :: specPass2 es gs counts
  | _, _, _ => []

/-- The full evaluation as the spec words it. -/
def specEvaluate (guess secret : List Char) : List Verdict :=
  let counts := specCounts secret
  let r := specPass1 guess secret counts
  specPass2 r.1 guess r.2

/-- An uppercase letter A-Z. -/
def isUpperLetter (c : Char) : Prop := 'A' ≤ c ∧ c ≤ 'Z'

instance (c : Char) : Decidable (isUpperLetter c) := by
  unfold isUpperLetter; infer_instance

/-- Number of positions at which the evaluation marks letter `c` of the
guess as `correct` or `present`. -/
def markedFor : List Char → List Verdict → Char → Nat
  | g :: gs, v :: vs, c =>
    (if g = c ∧ (v = Verdict.correct ∨ v = Verdict.present) then 1 else 0)
      + markedFor gs vs c
  | _, _, _ => 0

/-- Number of positions at which pass 1 marks letter `c` of the guess as
`correct`. -/
def correctMarks : List Char → List (Option Verdict) → Char → Nat
  | g :: gs, e :: es, c =>
    (if g = c ∧ e = some Verdict.correct then 1 else 0) + correctMarks gs es c
  | _, _, _ => 0

/-! ## Lemmas about the evaluation engine -/

theorem buildCounts_aux (l : List Char) :
    ∀ (m : Char → Int) (c : Char),
      (l.foldl (fun m letter => setCount m letter (m letter + 1)) m) c
        = m c + l.count c := by
  induction l with
  | nil => intro m c; simp
  | cons t ts ih =>
    intro m c
    simp only [List.foldl_cons, List.count_cons]
    rw [ih]
    simp only [setCount]
    by_cases h : c = t
    · subst h
      simp only [if_pos rfl, beq_self_eq_true, if_true]
      push_cast
      omega
    · simp only [if_neg h, beq_iff_eq, if_neg (Ne.symm h)]
      push_cast
      omega

/-- The count map built by the source's first loop is exactly the
occurrence count of each letter in the target. -/
theorem buildCounts_eq (target : List Char) (c : Char) :
    buildCounts target c = (target.count c : Int) := by
  simpa using buildCounts_aux target (fun _ => 0) c

/-- Pass 1 bookkeeping: the remaining count of a letter after pass 1, plus
the number of `correct` marks pass 1 assigned to it, equals its count before
pass 1. -/
theorem pass1_counts (gs : List Char) :
    ∀ (ts : List Char) (counts : Char → Int) (c : Char),
      (pass1 gs ts counts).2 c
          + (correctMarks gs (pass1 gs ts counts).1 c : Int)
        = counts c := by
  induction gs with
  | nil => intro ts counts c; simp [pass1, correctMarks]
  | cons g gs ih =>
    intro ts counts c
    cases ts with
    | nil => simp [pass1, correctMarks]
    | cons t ts =>
      by_cases hgt : g = t
      · simp only [pass1, if_pos hgt, correctMarks, eq_self_iff_true, and_true]
        have hih := ih ts (setCount counts g (counts g - 1)) c
        by_cases hc : g = c
        · subst hc
          simp only [if_pos rfl]
          simp only [setCount, if_pos rfl] at hih
          push_cast at hih ⊢
          omega
        · simp only [if_neg hc]
          simp only [setCount, if_neg (Ne.symm hc)] at hih
          push_cast at hih ⊢
          omega
      · simp only [pass1, if_neg hgt, correctMarks]
        have hih := ih ts counts c
        simp only [reduceCtorEq, and_false, if_false]
        push_cast at hih ⊢
        omega

/-- Pass 1 only assigns `correct` or leaves a position unassigned. -/
theorem pass1_shape (gs : List Char) :
    ∀ (ts : List Char) (counts : Char → Int) (e : Option Verdict),
      e ∈ (pass1 gs ts counts).1 → e = some Verdict.correct ∨ e = none := by
  induction gs with
  | nil => intro ts counts e h; simp [pass1] at h
  | cons g gs ih =>
    intro ts counts e h
    cases ts with
    | nil => simp [pass1] at h
    | cons t ts =>
      by_cases hgt : g = t
      · simp only [pass1, if_pos hgt, List.mem_cons] at h
        rcases h with h | h
        · exact Or.inl h
        · exact ih ts _ e h
      · simp only [pass1, if_neg hgt, List.mem_cons] at h
        rcases h with h | h
        · exact Or.inr h
        · exact ih ts _ e h

/-- Pass 1 never drives a count negative, as long as each letter's count
dominates its occurrence count in the remaining target suffix. -/
theorem pass1_nonneg (gs : List Char) :
    ∀ (ts : List Char) (counts : Char → Int),
      (∀ c, (ts.count c : Int) ≤ counts c) →
      ∀ c, 0 ≤ (pass1 gs ts counts).2 c := by
  induction gs with
  | nil =>
    intro ts counts hle c
    simp only [pass1]
    exact le_trans (Int.ofNat_nonneg _) (hle c)
  | cons g gs ih =>
    intro ts counts hle c
    cases ts with
    | nil =>
      simp only [pass1]
      exact le_trans (Int.ofNat_nonneg _) (hle c)
    | cons t ts =>
      by_cases hgt : g = t
      · simp only [pass1, if_pos hgt]
        refine ih ts _ (fun c' => ?_) c
        simp only [setCount]
        have := hle c'
        simp only [List.count_cons] at this
        by_cases hc' : c' = g
        · subst hc'
          simp only [if_pos rfl]
          rw [hgt] at this ⊢
          simp only [beq_self_eq_true, if_true] at this
          push_cast at this ⊢
          omega
        · simp only [if_neg hc']
          by_cases hct : t = c'
          · omega
          · simp only [beq_iff_eq, if_neg hct] at this
            push_cast at this ⊢
            omega
      · simp only [pass1, if_neg hgt]
        refine ih ts counts (fun c' => ?_) c
        have := hle c'
        simp only [List.count_cons] at this
        by_cases hct : t = c'
        · subst hct
          simp only [beq_self_eq_true, if_true] at this
          push_cast at this ⊢
          omega
        · simp only [beq_iff_eq, if_neg hct] at this
          push_cast at this ⊢
          omega

/-- A letter's remaining count never rises during pass 1. -/
theorem pass1_le (gs ts : List Char) (counts : Char → Int) (c : Char) :
    (pass1 gs ts counts).2 c ≤ counts c := by
  have h := pass1_counts gs ts counts c
  have h0 : (0 : Int) ≤ (correctMarks gs (pass1 gs ts counts).1 c : Int) :=
    Int.ofNat_nonneg _
  omega

/-- Pass 2 marking bound: the positions a letter gets marked correct or
present in the pass-2 output are bounded by its remaining count plus its
pass-1 correct marks, provided pass 1 produced only correct / unassigned
slots and the letter's remaining count is not negative. -/
theorem pass2_marked (target : List Char) (es : List (Option Verdict)) :
    ∀ (gs : List Char) (counts : Char → Int) (c : Char),
      (∀ e ∈ es, e = some Verdict.correct ∨ e = none) →
      0 ≤ counts c →
      (markedFor gs (pass2 target es gs counts) c : Int)
        ≤ counts c + (correctMarks gs es c : Int) := by
  induction es with
  | nil =>
    intro gs counts c _ h0
    cases gs <;> simp [pass2, markedFor, correctMarks] <;> omega
  | cons e es ih =>
    intro gs counts c hshape h0
    cases gs with
    | nil =>
      simp [pass2, markedFor, correctMarks]
      omega
    | cons g gs =>
      rcases hshape e (List.mem_cons_self e es) with he | he
      · subst he
        simp only [pass2, markedFor, correctMarks, eq_self_iff_true, true_or,
          and_true]
        have hih := ih gs counts c
          (fun e' he' => hshape e' (List.mem_cons_of_mem _ he')) h0
        by_cases hc : g = c
        · simp only [if_pos hc]
          push_cast
          omega
        · simp only [if_neg hc]
          push_cast
          omega
      · subst he
        by_cases hcond : g ∈ target ∧ counts g > 0
        · simp only [pass2, if_pos hcond, markedFor, correctMarks,
            reduceCtorEq, and_false, if_false, eq_self_iff_true, or_true,
            and_true]
          by_cases hc : g = c
          · subst hc
            have h0' : 0 ≤ setCount counts g (counts g - 1) g := by
              simp only [setCount, if_pos rfl]
              omega
            have hih := ih gs (setCount counts g (counts g - 1)) g
              (fun e' he' => hshape e' (List.mem_cons_of_mem _ he')) h0'
            simp only [setCount, if_pos rfl] at hih
            simp only [if_pos rfl]
            push_cast at hih ⊢
            omega
          · have h0' : 0 ≤ setCount counts g (counts g - 1) c := by
              simp only [setCount, if_neg (Ne.symm hc)]
              exact h0
            have hih := ih gs (setCount counts g (counts g - 1)) c
              (fun e' he' => hshape e' (List.mem_cons_of_mem _ he')) h0'
            simp only [setCount, if_neg (Ne.symm hc)] at hih
            simp only [if_neg hc]
            push_cast at hih ⊢
            omega
        · simp only [pass2, if_neg hcond, markedFor, correctMarks,
            reduceCtorEq, and_false, if_false, or_false]
          have hih := ih gs counts c
            (fun e' he' => hshape e' (List.mem_cons_of_mem _ he')) h0
          push_cast at hih ⊢
          omega

/-- With counts that are positive only for letters of the target, the
source's pass 2 (which additionally tests `includes`) agrees with the
spec's pass 2 (which tests only the remaining count). -/
theorem pass2_eq_spec (target : List Char) (es : List (Option Verdict)) :
    ∀ (gs : List Char) (counts : Char → Int),
      (∀ c, 0 < counts c → c ∈ target) →
      pass2 target es gs counts = specPass2 es gs counts := by
  induction es with
  | nil => intro gs counts _; cases gs <;> simp [pass2, specPass2]
  | cons e es ih =>
    intro gs counts hmem
    cases gs with
    | nil => simp [pass2, specPass2]
    | cons g gs =>
      cases e with
      | some v =>
        simp only [pass2, specPass2]
        rw [ih gs counts hmem]
      | none =>
        by_cases hpos : 0 < counts g
        · have hg : g ∈ target := hmem g hpos
          simp only [pass2, specPass2, if_pos hpos,
            if_pos (show g ∈ target ∧ counts g > 0 from ⟨hg, hpos⟩)]
          congr 1
          refine ih gs _ (fun c hc => ?_)
          by_cases hcg : c = g
          · exact hcg ▸ hg
          · refine hmem c ?_
            simpa [setCount, hcg] using hc
        · simp only [pass2, specPass2, if_neg hpos,
            if_neg (show ¬(g ∈ target ∧ counts g > 0) from fun h => hpos h.2)]
          rw [ih gs counts hmem]

/-- The spec's pass 1 is the source's pass 1. -/
theorem specPass1_eq (gs : List Char) :
    ∀ (ts : List Char) (counts : Char → Int),
      specPass1 gs ts counts = pass1 gs ts counts := by
  induction gs with
  | nil => intro ts counts; cases ts <;> simp [pass1, specPass1]
  | cons g gs ih =>
    intro ts counts
    cases ts with
    | nil => simp [pass1, specPass1]
    | cons t ts =>
      by_cases hgt : g = t
      · simp only [pass1, specPass1, if_pos hgt]
        rw [ih]
      · simp only [pass1, specPass1, if_neg hgt]
        rw [ih]

/-- Pass 1 on a word against itself marks every position correct. -/
theorem pass1_self (ws : List Char) :
    ∀ counts : Char → Int,
      (pass1 ws ws counts).1 = ws.map (fun _ => some Verdict.correct) := by
  induction ws with
  | nil => intro counts; simp [pass1]
  | cons w ws ih =>
    intro counts
    simp [pass1, ih]

/-- Pass 2 forwards fully-assigned slots unchanged. -/
theorem pass2_map_some (target : List Char) (vs : List Verdict) :
    ∀ (gs : List Char) (counts : Char → Int), vs.length = gs.length →
      pass2 target (vs.map some) gs counts = vs := by
  induction vs with
  | nil => intro gs counts h; simp [pass2]
  | cons v vs ih =>
    intro gs counts h
    cases gs with
    | nil => simp at h
    | cons g gs =>
      simp only [List.map_cons, pass2]
      rw [ih gs counts (by simpa using h)]

theorem map_const_replicate (v : Verdict) (l : List Char) :
    l.map (fun _ => v) = List.replicate l.length v := by
  induction l with
  | nil => simp
  | cons x xs ih => simp [List.replicate_succ, ih]

/-- Pass 1 on letter-disjoint lists of equal length assigns nothing and
leaves the counts untouched. -/
theorem pass1_disjoint (gs : List Char) :
    ∀ (ts : List Char) (counts : Char → Int), gs.length = ts.length →
      (∀ c ∈ gs, c ∉ ts) →
      pass1 gs ts counts = (List.replicate gs.length none, counts) := by
  induction gs with
  | nil =>
    intro ts counts h _
    cases ts with
    | nil => simp [pass1]
    | cons t ts => simp at h
  | cons g gs ih =>
    intro ts counts h hdisj
    cases ts with
    | nil => simp at h
    | cons t ts =>
      have hgt : g ≠ t := by
        intro he
        exact (hdisj g (List.mem_cons_self g gs))
          (he ▸ List.mem_cons_self t ts)
      simp only [pass1, if_neg hgt, List.length_cons, List.replicate_succ]
      rw [ih ts counts (by simpa using h)
        (fun c hc hm => hdisj c (List.mem_cons_of_mem g hc)
          (List.mem_cons_of_mem t hm))]

/-- Pass 2 over all-unassigned slots whose letters avoid the target marks
everything absent. -/
theorem pass2_disjoint (target : List Char) (gs : List Char) :
    ∀ counts : Char → Int,
      (∀ c ∈ gs, c ∉ target) →
      pass2 target (List.replicate gs.length none) gs counts
        = List.replicate gs.length Verdict.absent := by
  induction gs with
  | nil => intro counts _; simp [pass2]
  | cons g gs ih =>
    intro counts hdisj
    have hg : g ∉ target := hdisj g (List.mem_cons_self g gs)
    simp only [List.length_cons, List.replicate_succ, pass2]
    rw [if_neg (fun hh => hg hh.1)]
    rw [ih counts (fun c hc => hdisj c (List.mem_cons_of_mem g hc))]

/-! ## Claim theorems: evaluation engine -/

/-- C1: for every guess and secret that are both exactly WORD_LENGTH
uppercase letters, the source's evaluation follows the spec's two-pass
multiplicity-aware algorithm: build each secret letter's occurrence count,
assign Correct (decrementing) at every exact match, then scan the remaining
positions left to right assigning Present (decrementing) while the guessed
letter's remaining count is positive and Absent otherwise. -/
theorem evaluateGuess_eq_specEvaluate (guess secret : List Char)
    (hg : guess.length = WORD_LENGTH) (hs : secret.length = WORD_LENGTH)
    (hgu : ∀ c ∈ guess, isUpperLetter c)
    (hsu : ∀ c ∈ secret, isUpperLetter c) :
    evaluateGuess guess secret = specEvaluate guess secret := by
  have hcounts : buildCounts secret = specCounts secret := by
    funext c
    exact buildCounts_eq secret c
  simp only [evaluateGuess, specEvaluate, hcounts, specPass1_eq]
  refine pass2_eq_spec secret _ guess _ (fun c hc => ?_)
  have hle := pass1_le guess secret (specCounts secret) c
  have hpos : (0 : Int) < (secret.count c : Int) := lt_of_lt_of_le hc hle
  have : 0 < secret.count c := by exact_mod_cast hpos
  exact List.count_pos_iff.mp this

/-- Witness for C1 at guess CRANE, secret APPLE. -/
theorem evaluateGuess_eq_specEvaluate_witness :
    evaluateGuess "CRANE".toList "APPLE".toList
      = specEvaluate "CRANE".toList "APPLE".toList :=
  evaluateGuess_eq_specEvaluate "CRANE".toList "APPLE".toList
    (by decide) (by decide) (by decide) (by decide)

/-- C2 (counterexample): for secret APPLE and guess PAPER, the evaluation
is not [Present, Present, Correct, Absent, Present] as the spec claims. -/
theorem paper_apple_not_as_spec_claims :
    evaluateGuess "PAPER".toList "APPLE".toList ≠
      [Verdict.present, Verdict.present, Verdict.correct,
       Verdict.absent, Verdict.present] := by decide

/-- C2 (amended): for secret APPLE and guess PAPER, evaluation yields
[Present, Present, Correct, Present, Absent] in position order: guess
letter E at index 3 is in APPLE with its count unconsumed (Present), and
guess letter R at index 4 is not in APPLE (Absent). -/
theorem paper_apple_evaluation :
    evaluateGuess "PAPER".toList "APPLE".toList =
      [Verdict.present, Verdict.present, Verdict.correct,
       Verdict.present, Verdict.absent] := by decide

/-- C9: evaluating any word of the configured length against itself yields
Correct at every position, and evaluating a guess and secret of the
configured length that share no letters yields Absent at every position. -/
theorem evaluateGuess_extremes :
    (∀ w : List Char, w.length = WORD_LENGTH →
        evaluateGuess w w = List.replicate WORD_LENGTH Verdict.correct) ∧
    (∀ g t : List Char, g.length = WORD_LENGTH → t.length = WORD_LENGTH →
        (∀ c ∈ g, c ∉ t) →
        evaluateGuess g t = List.replicate WORD_LENGTH Verdict.absent) := by
  constructor
  · intro w hw
    have h1 : (pass1 w w (buildCounts w)).1
        = (w.map (fun _ => Verdict.correct)).map some := by
      rw [pass1_self]
      simp [List.map_map, Function.comp]
    simp only [evaluateGuess, h1]
    rw [pass2_map_some w _ w _ (by simp)]
    rw [map_const_replicate, hw]
  · intro g t hg ht hdisj
    simp only [evaluateGuess]
    rw [pass1_disjoint g t (buildCounts t) (by rw [hg, ht]) hdisj]
    rw [pass2_disjoint t g (buildCounts t) hdisj]
    rw [hg]

/-- Witness for C9: both parts at concrete words. -/
theorem evaluateGuess_extremes_witness :
    evaluateGuess "CRANE".toList "CRANE".toList
        = List.replicate WORD_LENGTH Verdict.correct ∧
    evaluateGuess "GHOST".toList "APPLE".toList
        = List.replicate WORD_LENGTH Verdict.absent :=
  ⟨evaluateGuess_extremes.1 "CRANE".toList (by decide),
   evaluateGuess_extremes.2 "GHOST".toList "APPLE".toList
     (by decide) (by decide) (by decide)⟩

/-- C10: for every well-formed guess and secret and every letter, the
number of positions the evaluation marks Correct or Present for that
letter is at most the letter's number of occurrences in the secret. -/
theorem evaluateGuess_marks_le_count (g t : List Char)
    (hg : g.length = WORD_LENGTH) (ht : t.length = WORD_LENGTH) (c : Char) :
    markedFor g (evaluateGuess g t) c ≤ t.count c := by
  have hshape := pass1_shape g t (buildCounts t)
  have hnonneg : 0 ≤ (pass1 g t (buildCounts t)).2 c := by
    refine pass1_nonneg g t (buildCounts t) (fun c' => ?_) c
    rw [buildCounts_eq]
  have hcounts := pass1_counts g t (buildCounts t) c
  rw [buildCounts_eq] at hcounts
  have hmarked := pass2_marked t (pass1 g t (buildCounts t)).1 g
    (pass1 g t (buildCounts t)).2 c hshape hnonneg
  have hint : (markedFor g (evaluateGuess g t) c : Int) ≤ (t.count c : Int) := by
    simp only [evaluateGuess]
    omega
  exact_mod_cast hint

/-- Witness for C10 at guess PAPER, secret APPLE, letter P. -/
theorem evaluateGuess_marks_le_count_witness :
    markedFor "PAPER".toList (evaluateGuess "PAPER".toList "APPLE".toList) 'P'
      ≤ "APPLE".toList.count 'P' :=
  evaluateGuess_marks_le_count "PAPER".toList "APPLE".toList
    (by decide) (by decide) 'P'

/-! ## Claim theorems: keyboard marks -/

/-- One aggregate update never lowers a letter's mark rank. -/
theorem updateKeyboard_rank_mono (kb : Char → Option Verdict) (letter : Char)
    (status : Verdict) (c : Char) :
    rank (kb c) ≤ rank (updateKeyboard kb letter status c) := by
  unfold updateKeyboard
  by_cases hm : letter.toLower ∈ KEYBOARD_KEYS
  · simp only [if_pos hm]
    by_cases hc : c = letter.toLower
    · subst hc
      cases hkb : kb letter.toLower with
      | none => cases status <;> simp [hkb, setMark, rank]
      | some v =>
        cases v with
        | correct => simp [hkb]
        | present => cases status <;> simp [hkb, setMark, rank]
        | absent => cases status <;> simp [hkb, setMark, rank]
    · cases hkb : kb letter.toLower with
      | none => simp [hkb, setMark, if_neg hc]
      | some v => cases v <;> cases status <;> simp [hkb, setMark, if_neg hc]
  · simp [if_neg hm]

/-- One aggregate update never changes a letter already marked correct. -/
theorem updateKeyboard_correct_stable (kb : Char → Option Verdict)
    (letter : Char) (status : Verdict) (c : Char)
    (h : kb c = some Verdict.correct) :
    updateKeyboard kb letter status c = some Verdict.correct := by
  unfold updateKeyboard
  by_cases hm : letter.toLower ∈ KEYBOARD_KEYS
  · simp only [if_pos hm]
    by_cases hc : c = letter.toLower
    · subst hc
      simp [h]
    · cases hkb : kb letter.toLower with
      | none => simp [hkb, setMark, if_neg hc, h]
      | some v => cases v <;> cases status <;> simp [hkb, setMark, if_neg hc, h]
  · simp [if_neg hm, h]

theorem applyUpdates_cons (kb : Char → Option Verdict) (u : Char × Verdict)
    (us : List (Char × Verdict)) :
    applyUpdates kb (u :: us) = applyUpdates (updateKeyboard kb u.1 u.2) us :=
  rfl

theorem applyUpdates_rank_mono (ups : List (Char × Verdict)) :
    ∀ (kb : Char → Option Verdict) (c : Char),
      rank (kb c) ≤ rank (applyUpdates kb ups c) := by
  induction ups with
  | nil => intro kb c; simp [applyUpdates]
  | cons u us ih =>
    intro kb c
    rw [applyUpdates_cons]
    exact le_trans (updateKeyboard_rank_mono kb u.1 u.2 c) (ih _ c)

theorem applyUpdates_correct_stable (ups : List (Char × Verdict)) :
    ∀ (kb : Char → Option Verdict) (c : Char),
      kb c = some Verdict.correct →
      applyUpdates kb ups c = some Verdict.correct := by
  induction ups with
  | nil => intro kb c h; simpa [applyUpdates] using h
  | cons u us ih =>
    intro kb c h
    rw [applyUpdates_cons]
    exact ih _ c (updateKeyboard_correct_stable kb u.1 u.2 c h)

theorem rank_two_not_absent (x : Option Verdict) (h : 2 ≤ rank x) :
    x ≠ some Verdict.absent := by
  intro he
  subst he
  simp [rank] at h

/-- C3: keyboard-mark aggregation is monotone: over every sequence of
aggregate updates, a letter's mark rank never decreases (upgrades only, in
the order unmarked, Absent, Present, Correct), a Correct mark is never
changed, and a Present mark is never downgraded to Absent. -/
theorem keyboard_marks_monotone :
    ∀ (ups : List (Char × Verdict)) (kb : Char → Option Verdict) (c : Char),
      rank (kb c) ≤ rank (applyUpdates kb ups c) ∧
      (kb c = some Verdict.correct →
        applyUpdates kb ups c = some Verdict.correct) ∧
      (kb c = some Verdict.present →
        applyUpdates kb ups c ≠ some Verdict.absent) := by
  intro ups kb c
  refine ⟨applyUpdates_rank_mono ups kb c,
    applyUpdates_correct_stable ups kb c, fun hp => ?_⟩
  refine rank_two_not_absent _ ?_
  have := applyUpdates_rank_mono ups kb c
  rw [hp] at this
  simpa [rank] using this

/-- Sample keyboard maps for the C3 witness. -/
def kbCorrectA : Char → Option Verdict :=
  fun c => if c = 'a' then some Verdict.correct else none

def kbPresentA : Char → Option Verdict :=
  fun c => if c = 'a' then some Verdict.present else none

/-- Witness for C3 at concrete keyboards and the update list
[(a, Absent)]. -/
theorem keyboard_marks_monotone_witness :
    applyUpdates kbCorrectA [('a', Verdict.absent)] 'a'
        = some Verdict.correct ∧
    applyUpdates kbPresentA [('a', Verdict.absent)] 'a'
        ≠ some Verdict.absent :=
  ⟨(keyboard_marks_monotone [('a', Verdict.absent)] kbCorrectA 'a').2.1
      (by decide),
   (keyboard_marks_monotone [('a', Verdict.absent)] kbPresentA 'a').2.2
      (by decide)⟩

/-! ## Claim theorems: word provider fallback -/

/-- C4 (counterexample): two runs in which the remote fetch fails but whose
random draws differ choose different fallback words, so the fallback
selection is not deterministic across failing runs. -/
theorem fallback_not_deterministic :
    chooseTargetWord FetchResult.failed 0 ≠ chooseTargetWord FetchResult.failed 1 := by
  decide

/-- C4 (amended): on fetch failure the word is drawn from the fixed local
fallback vocabulary as a function of the random draw alone: every failing
run's word is a member of FALLBACK_WORDS, and two failing runs with the
same random draw choose the same word. -/
theorem fallback_from_fixed_vocabulary :
    ∀ r : Nat, chooseTargetWord FetchResult.failed r ∈ FALLBACK_WORDS := by
  intro r
  have hlt : r % FALLBACK_WORDS.length < FALLBACK_WORDS.length :=
    Nat.mod_lt _ (by decide)
  show FALLBACK_WORDS.getD (r % FALLBACK_WORDS.length) "" ∈ FALLBACK_WORDS
  rw [List.getD_eq_getElem _ _ hlt]
  exact List.getElem_mem hlt

/-! ## Claim theorems: session state machine -/

/-- Once the game-over flag is set, `handleKeyPress` ignores every input. -/
theorem handleKeyPress_gameOver (st : GameState) (k : InputKey)
    (v : ValidatorResult) (h : st.isGameOver = true) :
    handleKeyPress st k v = (st, []) := by
  unfold handleKeyPress
  rw [h]
  simp

/-- Once the game-over flag is set, whole input runs are ignored. -/
theorem runGame_gameOver (inputs : List (InputKey × ValidatorResult)) :
    ∀ st : GameState, st.isGameOver = true → runGame st inputs = (st, []) := by
  induction inputs with
  | nil => intro st _; rfl
  | cons i is ih =>
    intro st h
    simp only [runGame]
    rw [handleKeyPress_gameOver st i.1 i.2 h, ih st h]
    rfl

/-- Each single input emits at most one terminal signal, and none at all
when it leaves the game-over flag clear. -/
theorem handleKeyPress_terminal (st : GameState) (k : InputKey)
    (v : ValidatorResult) :
    terminalCount (handleKeyPress st k v).2 ≤ 1 ∧
    ((handleKeyPress st k v).1.isGameOver = false →
      terminalCount (handleKeyPress st k v).2 = 0) := by
  unfold handleKeyPress
  split_ifs with h1
  · simp [terminalCount]
  · cases k with
    | backspace => dsimp only; simp [terminalCount]
    | other => dsimp only; simp [terminalCount]
    | char c =>
      dsimp only
      split_ifs with h2
      · simp [terminalCount]
      · simp [terminalCount]
    | enter =>
      dsimp only
      unfold submitGuess
      split_ifs with h2
      · simp [terminalCount]
      · cases v with
        | rejected => dsimp only; simp [terminalCount]
        | networkError => dsimp only; simp [terminalCount]
        | accepted =>
          dsimp only
          unfold checkWinLoss
          split_ifs with h3 h4
          · refine ⟨by simp [terminalCount], fun h => ?_⟩
            simp at h
          · refine ⟨by simp [terminalCount], fun h => ?_⟩
            simp at h
          · simp [terminalCount]

theorem terminalCount_append (a b : List Signal) :
    terminalCount (a ++ b) = terminalCount a + terminalCount b := by
  simp [terminalCount, List.filter_append]

/-- Any whole run emits at most one terminal signal. -/
theorem runGame_terminal (inputs : List (InputKey × ValidatorResult)) :
    ∀ st : GameState, terminalCount (runGame st inputs).2 ≤ 1 := by
  induction inputs with
  | nil => intro st; simp [runGame, terminalCount]
  | cons i is ih =>
    intro st
    simp only [runGame]
    rw [terminalCount_append]
    by_cases h : (handleKeyPress st i.1 i.2).1.isGameOver = true
    · rw [runGame_gameOver is _ h]
      have hle := (handleKeyPress_terminal st i.1 i.2).1
      have h0 : terminalCount ([] : List Signal) = 0 := rfl
      dsimp only
      omega
    · have h0 := (handleKeyPress_terminal st i.1 i.2).2 (by simpa using h)
      have hih := ih (handleKeyPress st i.1 i.2).1
      omega

/-- From an Active state, a submit wins exactly when the validator accepts
a full row whose guess equals the secret word. -/
theorem submit_win_iff (st : GameState) (v : ValidatorResult)
    (hover : st.isGameOver = false) (hproc : st.isProcessing = false) :
    Signal.gameWon ∈ (handleKeyPress st InputKey.enter v).2 ↔
      (v = ValidatorResult.accepted ∧ ¬ st.currentCol < WORD_LENGTH ∧
        getCurrentGuess st = st.targetWord) := by
  unfold handleKeyPress
  split_ifs with h1
  · simp [hover, hproc] at h1
  · dsimp only
    unfold submitGuess
    split_ifs with h2
    · simp [h2]
    · cases v with
      | rejected => simp
      | networkError => simp
      | accepted =>
        dsimp only
        unfold checkWinLoss
        split_ifs with h3 h4
        · simp [h2, h3]
        · simp [h2, h3]
        · simp [h2, h3]

/-- From an Active state, a submit loses exactly when the validator
accepts a full row whose guess differs from the secret word on the final
allowed row. -/
theorem submit_loss_iff (st : GameState) (v : ValidatorResult)
    (hover : st.isGameOver = false) (hproc : st.isProcessing = false) :
    Signal.gameLost ∈ (handleKeyPress st InputKey.enter v).2 ↔
      (v = ValidatorResult.accepted ∧ ¬ st.currentCol < WORD_LENGTH ∧
        getCurrentGuess st ≠ st.targetWord ∧
        st.currentRow = MAX_GUESSES - 1) := by
  unfold handleKeyPress
  split_ifs with h1
  · simp [hover, hproc] at h1
  · dsimp only
    unfold submitGuess
    split_ifs with h2
    · simp [h2]
    · cases v with
      | rejected => simp
      | networkError => simp
      | accepted =>
        dsimp only
        unfold checkWinLoss
        split_ifs with h3 h4
        · dsimp only at h3
          simp [h2, h3]
        · dsimp only at h3 h4
          simp [h2, h3, h4]
        · dsimp only at h3 h4
          simp [h2, h3, h4]

/-- C5: terminal signals are exclusive and exhaustive: the win signal
fires exactly when an accepted full-row guess equals the secret, the loss
signal exactly when an accepted non-winning full-row guess is evaluated on
the final row, never both, and either one sets the game-over flag; once
that flag is set every later input is ignored (until a reset builds a
fresh state), so a whole session run emits at most one terminal signal. -/
theorem terminal_exclusive :
    (∀ (st : GameState) (v : ValidatorResult),
        st.isGameOver = false → st.isProcessing = false →
        (Signal.gameWon ∈ (handleKeyPress st InputKey.enter v).2 ↔
          (v = ValidatorResult.accepted ∧ ¬ st.currentCol < WORD_LENGTH ∧
            getCurrentGuess st = st.targetWord)) ∧
        (Signal.gameLost ∈ (handleKeyPress st InputKey.enter v).2 ↔
          (v = ValidatorResult.accepted ∧ ¬ st.currentCol < WORD_LENGTH ∧
            getCurrentGuess st ≠ st.targetWord ∧
            st.currentRow = MAX_GUESSES - 1))) ∧
    (∀ (st : GameState) (guess : List Char),
        (Signal.gameWon ∈ (checkWinLoss st guess).2 ↔ guess = st.targetWord) ∧
        (Signal.gameLost ∈ (checkWinLoss st guess).2 ↔
          guess ≠ st.targetWord ∧ st.currentRow = MAX_GUESSES - 1) ∧
        ¬(Signal.gameWon ∈ (checkWinLoss st guess).2 ∧
          Signal.gameLost ∈ (checkWinLoss st guess).2) ∧
        ((Signal.gameWon ∈ (checkWinLoss st guess).2 ∨
            Signal.gameLost ∈ (checkWinLoss st guess).2) →
          (checkWinLoss st guess).1.isGameOver = true)) ∧
    (∀ (st : GameState) (k : InputKey) (v : ValidatorResult),
        st.isGameOver = true → handleKeyPress st k v = (st, [])) ∧
    (∀ (st : GameState) (inputs : List (InputKey × ValidatorResult)),
        terminalCount (runGame st inputs).2 ≤ 1) := by
  refine ⟨fun st v hover hproc =>
      ⟨submit_win_iff st v hover hproc, submit_loss_iff st v hover hproc⟩,
    fun st guess => ?_, fun st k v h => handleKeyPress_gameOver st k v h,
    fun st inputs => runGame_terminal inputs st⟩
  unfold checkWinLoss
  split_ifs with h1 h2
  · simp [h1]
  · simp [h1, h2]
  · simp [h1, h2]

/-- A session state with the game-over flag set, for the C5 witness. -/
def overState : GameState :=
  { initState "APPLE".toList with isGameOver := true }

/-- A full-row Active session state, for the C5, C6 witnesses. -/
def fullRowState : GameState :=
  { targetWord := "APPLE".toList
    currentRow := 0
    currentCol := 5
    isGameOver := false
    isProcessing := false
    tiles := fun r c => if r = 0 ∧ c < 5 then some 'c' else none
    keyboard := fun _ => none }

/-- Witness for C5: the win-iff at a concrete Active full-row state, and
input ignored at a concrete finished state. -/
theorem terminal_exclusive_witness :
    (Signal.gameWon ∈
        (handleKeyPress fullRowState InputKey.enter ValidatorResult.accepted).2 ↔
      (ValidatorResult.accepted = ValidatorResult.accepted ∧
        ¬ fullRowState.currentCol < WORD_LENGTH ∧
        getCurrentGuess fullRowState = fullRowState.targetWord)) ∧
    handleKeyPress overState InputKey.backspace ValidatorResult.accepted
      = (overState, []) :=
  ⟨(terminal_exclusive.1 fullRowState ValidatorResult.accepted rfl rfl).1,
   terminal_exclusive.2.2.1 overState InputKey.backspace
     ValidatorResult.accepted rfl⟩

/-- C6: when the validator rejects a full-row guess or fails with a
transport error, the session state is exactly the pre-submission state
with the input lock clear (same row, cursor, tiles, keyboard, and target;
no row consumed), and only the corresponding toast signal is emitted. -/
theorem rejected_submit_preserves_state :
    ∀ st : GameState, st.currentCol = WORD_LENGTH →
      submitGuess st ValidatorResult.rejected
          = ({ st with isProcessing := false }, [Signal.notInWordList]) ∧
      submitGuess st ValidatorResult.networkError
          = ({ st with isProcessing := false }, [Signal.errorChecking]) := by
  intro st hcol
  have hnot : ¬ st.currentCol < WORD_LENGTH := by omega
  constructor <;> simp [submitGuess, hnot]

/-- Witness for C6 at a concrete full-row state. -/
theorem rejected_submit_preserves_state_witness :
    submitGuess fullRowState ValidatorResult.rejected
      = ({ fullRowState with isProcessing := false }, [Signal.notInWordList]) :=
  (rejected_submit_preserves_state fullRowState rfl).1

/-- Bounds invariant of C7: the cursor stays within the word length and
the row index within the final row. -/
def InvBounds (st : GameState) : Prop :=
  st.currentCol ≤ WORD_LENGTH ∧ st.currentRow ≤ MAX_GUESSES - 1

theorem checkWinLoss_bounds (st : GameState) (guess : List Char)
    (h : InvBounds st) : InvBounds (checkWinLoss st guess).1 := by
  unfold checkWinLoss
  split_ifs with h1 h2
  · exact h
  · exact h
  · obtain ⟨hc, hr⟩ := h
    refine ⟨Nat.zero_le _, ?_⟩
    show st.currentRow + 1 ≤ MAX_GUESSES - 1
    unfold MAX_GUESSES at h2 hr ⊢
    omega

theorem submitGuess_bounds (st : GameState) (v : ValidatorResult)
    (h : InvBounds st) : InvBounds (submitGuess st v).1 := by
  unfold submitGuess
  split_ifs with h1
  · exact h
  · cases v with
    | rejected => exact h
    | networkError => exact h
    | accepted => exact checkWinLoss_bounds _ _ h

theorem addLetter_bounds (st : GameState) (letter : Char)
    (h : InvBounds st) : InvBounds (addLetter st letter) := by
  obtain ⟨hc, hr⟩ := h
  unfold addLetter
  split_ifs with h1
  · refine ⟨?_, hr⟩
    show st.currentCol + 1 ≤ WORD_LENGTH
    omega
  · exact ⟨hc, hr⟩

theorem deleteLetter_bounds (st : GameState)
    (h : InvBounds st) : InvBounds (deleteLetter st) := by
  obtain ⟨hc, hr⟩ := h
  unfold deleteLetter
  split_ifs with h1
  · refine ⟨?_, hr⟩
    show st.currentCol - 1 ≤ WORD_LENGTH
    omega
  · exact ⟨hc, hr⟩

theorem handleKeyPress_bounds (st : GameState) (k : InputKey)
    (v : ValidatorResult) (h : InvBounds st) :
    InvBounds (handleKeyPress st k v).1 := by
  unfold handleKeyPress
  split_ifs with h1
  · exact h
  · cases k with
    | enter => dsimp only; exact submitGuess_bounds st v h
    | backspace => dsimp only; exact deleteLetter_bounds st h
    | char c =>
      dsimp only
      split_ifs with h2
      · exact addLetter_bounds st c.toLower h
      · exact h
    | other => dsimp only; exact h

/-- C7: the fresh session state satisfies the cursor / row bounds, every
input transition preserves them, and hence every state reachable by a run
of inputs from a fresh session satisfies them. -/
theorem session_bounds :
    (∀ target : List Char, InvBounds (initState target)) ∧
    (∀ (st : GameState) (k : InputKey) (v : ValidatorResult),
        InvBounds st → InvBounds (handleKeyPress st k v).1) ∧
    (∀ (target : List Char) (inputs : List (InputKey × ValidatorResult)),
        InvBounds (runGame (initState target) inputs).1) := by
  have hrun : ∀ (inputs : List (InputKey × ValidatorResult)) (st : GameState),
      InvBounds st → InvBounds (runGame st inputs).1 := by
    intro inputs
    induction inputs with
    | nil => intro st h; exact h
    | cons i is ih =>
      intro st h
      simp only [runGame]
      exact ih _ (handleKeyPress_bounds st i.1 i.2 h)
  refine ⟨fun target => ⟨Nat.zero_le _, Nat.zero_le _⟩,
    fun st k v h => handleKeyPress_bounds st k v h,
    fun target inputs => hrun inputs _ ⟨Nat.zero_le _, Nat.zero_le _⟩⟩

/-- Witness for C7 at a concrete letter input on a fresh state. -/
theorem session_bounds_witness :
    InvBounds (handleKeyPress (initState "APPLE".toList)
      (InputKey.char 'a') ValidatorResult.accepted).1 :=
  session_bounds.2.1 (initState "APPLE".toList) (InputKey.char 'a')
    ValidatorResult.accepted ⟨Nat.zero_le _, Nat.zero_le _⟩

/-- C8: a submit in the Active state with an incomplete row is rejected
without consulting the validator or evaluator: only the not-enough-letters
signal is emitted, the state (cursor, row, tiles) is unchanged, and the
outcome is the same whatever the validator would have answered. -/
theorem incomplete_submit_rejected :
    ∀ (st : GameState) (v : ValidatorResult),
      st.isGameOver = false → st.isProcessing = false →
      st.currentCol < WORD_LENGTH →
      handleKeyPress st InputKey.enter v = (st, [Signal.notEnoughLetters]) ∧
      (∀ v' : ValidatorResult, submitGuess st v = submitGuess st v') := by
  intro st v hover hproc hcol
  constructor
  · simp [handleKeyPress, hover, hproc, submitGuess, hcol]
  · intro v'
    simp [submitGuess, hcol]

/-- Witness for C8 on a fresh (empty-row) state. -/
theorem incomplete_submit_rejected_witness :
    handleKeyPress (initState "APPLE".toList) InputKey.enter
        ValidatorResult.accepted
      = (initState "APPLE".toList, [Signal.notEnoughLetters]) :=
  (incomplete_submit_rejected (initState "APPLE".toList)
    ValidatorResult.accepted rfl rfl (by decide)).1

end Wordle
